import Mathlib

/-!
# Beacon state-root proof generation (`generate-proof/beacon.go`)

A shallow embedding of the generalized-index Merkle proof code of
`GetBeaconProof` and `BeaconProof.Log`:

* the index composition (`beacon.go` lines 67-78),
* the root-to-leaf walk that collects sibling hashes (lines 80-114),
* the proof bundle (lines 126-133) and its check in `Log` (line 147).

32-byte hashes are an abstract type `H` with decidable equality; the hash of
two concatenated 32-byte values is a parameter `hash : H → H → H`
(`tree.Hash` on the ztyp side, `hash.Hash (append a b)` on the prysm side,
both SHA-256 of the 64-byte concatenation).  The `uint64` index is a natural
number, reduced modulo `2 ^ 64` wherever Go arithmetic can overflow.

The functions of the ztyp (`tree`) and prysm (`trie`) libraries that
`beacon.go` calls are not part of the repository sources.  They appear here
under their library names; each doc comment says what the definition is
modelled on.
-/

namespace StateProof

/-! ## Constants (`beacon.go` lines 18-20) -/

def BeaconBlockBodyPosition : Nat := 4
def ExecutionPayloadPosition : Nat := 9
def ExecutionStateRootPosition : Nat := 2

/-! ## Errors -/

deriving instance DecidableEq for Except

/-- The two errors of `tree.ToGindex64`. -/
inductive GindexError where
  | depthTooDeep (depth : Nat)
  | indexTooLarge (index anchor depth : Nat)
  deriving DecidableEq, Repr

/-- The error of `Left()` / `Right()` on a node that has no children. -/
inductive NavigationError where
  | noChildren
  deriving DecidableEq, Repr

/-- The error of reading a scalar field (`view.AsUint64`, `AsTimestamp`). -/
inductive ViewError where
  | badField (position : Nat)
  deriving DecidableEq, Repr

/-- Ways in which `GetBeaconProof` ends without a proof.  The first three are
`return nil, err`; `ProofMismatch` is the `log.Fatalf` of line 88, which
terminates the process. -/
inductive Failure (H : Type) where
  | InvalidLayout (e : GindexError)
  | TraversalError (e : NavigationError)
  | ViewFailure (e : ViewError)
  | ProofMismatch (expected got : H)
  deriving DecidableEq, Repr

/-! ## Generalized indices (ztyp `tree` package) -/

/-- Wrap a natural number to the range of `uint64`. -/
def u64 (n : Nat) : Nat := n % 2 ^ 64

/-- Go `x << s` on `uint64`: bits shifted past position 63 are lost. -/
def shl64 (x s : Nat) : Nat := u64 (x <<< s)

/-- Halve `v` until it is at most `1`, counting the steps. -/
def bitIndexAux : Nat → Nat → Nat
  | 0, _ => 0
  | fuel + 1, v => if v ≤ 1 then 0 else bitIndexAux fuel (v / 2) + 1

/-- Modelled from the spec: position of the leading ("sentinel") set bit of
an index (ztyp `tree.BitIndex`, not in the repository sources); `0` for `0`
and `1`. -/
def BitIndex (v : Nat) : Nat := bitIndexAux v v

/-- Modelled from the spec: the cover depth of a container with `v` fields
(ztyp `tree.CoverDepth`, not in the repository sources), "smallest integer
`d` such that `2^d >= containerFieldCount`", computed as `0` for `v ≤ 1` and
`BitIndex (v - 1) + 1` otherwise (see `CoverDepth_minimal`). -/
def CoverDepth (v : Nat) : Nat :=
  if v = 0 ∨ v = 1 then 0 else BitIndex (v - 1) + 1

/-- Modelled from the spec: the generalized index of field `index` in a
container of cover depth `depth` (ztyp `tree.ToGindex64`, not in the
repository sources): the generalized index of the outermost field is
"`2^depth_0 + fieldPosition_0`", failing "if `fieldPosition >= 2^depth`".
The anchor bit is `1 << depth`, so a depth of 64 or more is rejected as
well. -/
def ToGindex64 (index depth : Nat) : Except GindexError Nat :=
  if depth ≥ 64 then .error (.depthTooDeep depth)
  else
    let anchor := shl64 1 depth
    if index ≥ anchor then .error (.indexTooLarge index anchor depth)
    else .ok (anchor ||| index)

/-- The bits of `g` at positions `k-1, k-2, ..., 0`, highest first. -/
def bitsFrom (g : Nat) : Nat → List Bool
  | 0 => []
  | k + 1 => g.testBit k :: bitsFrom g k

/-- Modelled from the spec: the bit iterator of ztyp (`Gindex64.BitIter`),
whose source is not in the repository: "strip the leading sentinel bit, then
read remaining bits most-significant-first; bit=1 means descend right".
The list holds what successive calls of `Next` return. -/
def BitIter (g : Nat) : List Bool := bitsFrom g (BitIndex g)

/-! ## Index composition (`beacon.go` lines 67-78) -/

/-- Lines 72-78: extend the body index by the two inner container levels. -/
def extendGindex (bodyGindex epDepth esrDepth : Nat) : Nat :=
  let gindex := bodyGindex
  let gindex := shl64 gindex epDepth
  let gindex := gindex ||| ExecutionPayloadPosition
  let gindex := shl64 gindex esrDepth
  let gindex := gindex ||| ExecutionStateRootPosition
  gindex

/-- Lines 67-78 in terms of the three cover depths: the body index comes from
`ToGindex64` (whose error is returned), then the two inner levels are
shifted and OR-ed in. -/
def composeAtDepths (bodyDepth epDepth esrDepth : Nat) :
    Except GindexError Nat :=
  match ToGindex64 BeaconBlockBodyPosition bodyDepth with
  | .error err => .error err
  | .ok bodyGindex => .ok (extendGindex bodyGindex epDepth esrDepth)

/-- Lines 67-78 for a container layout given by the field counts of
`BeaconBlock`, `BeaconBlockBody` and `ExecutionPayload`. -/
def composeGindex (blockFields bodyFields payloadFields : Nat) :
    Except GindexError Nat :=
  composeAtDepths (CoverDepth blockFields) (CoverDepth bodyFields)
    (CoverDepth payloadFields)

/-! ## Tree nodes (ztyp `tree.Node`) -/

/-- Modelled from the spec: the tree node of the decoder (ztyp `tree.Node`,
not in the repository sources), "an opaque binary-tree node with three
operations: `merkle_root()`, `left()`, `right()` (each may fail if the node
has no children)".  `Root` is a node without children, `PairNode` has two
children and carries its merkle root. -/
inductive Node (H : Type) where
  | Root (value : H)
  | PairNode (value : H) (left right : Node H)
  deriving DecidableEq, Repr

namespace Node

variable {H : Type}

def MerkleRoot : Node H → H
  | Root v => v
  | PairNode v _ _ => v

def Left : Node H → Except NavigationError (Node H)
  | Root _ => .error .noChildren
  | PairNode _ l _ => .ok l

def Right : Node H → Except NavigationError (Node H)
  | Root _ => .error .noChildren
  | PairNode _ _ r => .ok r

/-- A binary hash tree: the merkle root of every inner node is the hash of
the merkle roots of its two children. -/
def Hashed (hash : H → H → H) : Node H → Prop
  | Root _ => True
  | PairNode v l r =>
    v = hash l.MerkleRoot r.MerkleRoot ∧ Hashed hash l ∧ Hashed hash r

/-- Build an inner node the way ztyp does, computing its merkle root. -/
def pair (hash : H → H → H) (l r : Node H) : Node H :=
  PairNode (hash l.MerkleRoot r.MerkleRoot) l r

instance decidableHashed [DecidableEq H] (hash : H → H → H) :
    (n : Node H) → Decidable (n.Hashed hash)
  | Root _ => isTrue trivial
  | PairNode v l r =>
    match decEq v (hash l.MerkleRoot r.MerkleRoot), decidableHashed hash l,
      decidableHashed hash r with
    | isTrue h1, isTrue h2, isTrue h3 => isTrue ⟨h1, h2, h3⟩
    | isFalse h1, _, _ => isFalse (fun h => h1 h.1)
    | _, isFalse h2, _ => isFalse (fun h => h2 h.2.1)
    | _, _, isFalse h3 => isFalse (fun h => h3 h.2.2)

end Node

/-! ## The walk (`beacon.go` lines 80-114) -/

section Walk

variable {H : Type} [DecidableEq H]

/-- The `for` loop of lines 83-114.  `iter` is what remains of the bit
iterator, `node` the current node and `proof` the sibling list so far.  On
normal exit (`break`) the final node and proof are returned. -/
def walkLoop (esr : H) :
    List Bool → Node H → List H → Except (Failure H) (Node H × List H)
  | [], node, proof =>
    let nodeRoot := node.MerkleRoot
    if nodeRoot ≠ esr then .error (.ProofMismatch esr nodeRoot)
    else .ok (node, proof)
  | right :: iter, node, proof =>
    if right then
      match node.Left with
      | .error err => .error (.TraversalError err)
      | .ok complement =>
        match node.Right with
        | .error err => .error (.TraversalError err)
        | .ok next =>
          walkLoop esr iter next (complement.MerkleRoot :: proof)
    else
      match node.Right with
      | .error err => .error (.TraversalError err)
      | .ok complement =>
        match node.Left with
        | .error err => .error (.TraversalError err)
        | .ok next =>
          walkLoop esr iter next (complement.MerkleRoot :: proof)

/-- Lines 80-114: iterate the bits of `gindex` from the backing node of the block
view, with an empty proof. -/
def walk (node : Node H) (esr : H) (gindex : Nat) :
    Except (Failure H) (Node H × List H) :=
  walkLoop esr (BitIter gindex) node []

/-- The proof bundle (`beacon.go` lines 22-29). -/
structure BeaconProof (H : Type) where
  Root : H
  Item : H
  Index : Nat
  Proof : List H
  BlockNumber : Nat
  Timestamp : Nat
  deriving DecidableEq, Repr

/-- The part of `GetBeaconProof` after decoding (lines 67-133).  Inputs are
what the decoded block provides: the field counts of the three container
types, the backing node of the block view, the merkle root `esr` of the
execution state root field (line 65) and the results of reading the block
number and timestamp fields (lines 116, 120). -/
def GetBeaconProof (blockFields bodyFields payloadFields : Nat)
    (backing : Node H) (esr : H) (bn ts : Except ViewError Nat) :
    Except (Failure H) (BeaconProof H) :=
  match composeGindex blockFields bodyFields payloadFields with
  | .error err => .error (.InvalidLayout err)
  | .ok gindex =>
    match walk backing esr gindex with
    | .error failure => .error failure
    | .ok (_, proof) =>
      match bn with
      | .error err => .error (.ViewFailure err)
      | .ok bn =>
        match ts with
        | .error err => .error (.ViewFailure err)
        | .ok ts =>
          let root := backing.MerkleRoot
          .ok (BeaconProof.mk root esr (u64 gindex) proof (u64 bn) (u64 ts))

/-- Modelled from the spec: indexed field access `get(position)` on a decoded
container (ztyp `ContainerView.Get`, not in the repository sources).  A
container with `fieldCount` fields has its fields at positions
`0 .. fieldCount - 1`; access to any other position returns an error.  Only
the outcome of the access is kept, the view it yields is not needed. -/
def Get (position fieldCount : Nat) : Except ViewError Unit :=
  if position ≥ fieldCount then .error (.badField position) else .ok ()

/-- Lines 53-64: the three field accesses along the path, on the block
(`blockFields` fields), the body and the execution payload; the first error
is returned. -/
def accessPath (blockFields bodyFields payloadFields : Nat) :
    Except ViewError Unit :=
  match Get BeaconBlockBodyPosition blockFields with
  | .error err => .error err
  | .ok _ =>
    match Get ExecutionPayloadPosition bodyFields with
    | .error err => .error err
    | .ok _ => Get ExecutionStateRootPosition payloadFields

/-- Lines 53-133 of `GetBeaconProof`: the field accesses of lines 53-64, whose
error ends the function, followed by the index composition, the walk and the
bundle of lines 67-133. -/
def GetBeaconProofOfBlock (blockFields bodyFields payloadFields : Nat)
    (backing : Node H) (esr : H) (bn ts : Except ViewError Nat) :
    Except (Failure H) (BeaconProof H) :=
  match accessPath blockFields bodyFields payloadFields with
  | .error err => .error (.ViewFailure err)
  | .ok _ =>
    GetBeaconProof blockFields bodyFields payloadFields backing esr bn ts

end Walk

/-! ## The verifier (prysm `container/trie`) -/

section Verify

variable {H : Type} [DecidableEq H]

/-- The loop of prysm `trie.VerifyMerkleProofWithDepth` (not in the
repository sources; after the library): one iteration per proof element,
`proof[0]` first, deciding by the lowest bit of `merkleIndex`, which is
halved after each step. -/
def verifyLoop (hash : H → H → H) : List H → Nat → H → H
  | [], _, node => node
  | p :: rest, merkleIndex, node =>
    verifyLoop hash rest (merkleIndex / 2)
      (if merkleIndex &&& 1 = 1 then hash p node else hash node p)

/-- Prysm `trie.VerifyMerkleProofWithDepth` (not in the repository sources;
after the library): rejects a proof whose length is not `depth + 1`,
otherwise runs the loop and compares the result with `root`. -/
def VerifyMerkleProofWithDepth (hash : H → H → H) (root item : H)
    (merkleIndex : Nat) (proof : List H) (depth : Nat) : Bool :=
  if proof.length ≠ depth + 1 then false
  else decide (root = verifyLoop hash proof merkleIndex item)

/-- Prysm `trie.VerifyMerkleProof`, the verifier called at `beacon.go`
line 147 (not in the repository sources; after the library): an empty proof
is rejected (the function returns false), otherwise the depth is
`len(proof) - 1`. -/
def VerifyMerkleProof (hash : H → H → H) (root item : H)
    (merkleIndex : Nat) (proof : List H) : Bool :=
  if proof.length = 0 then false
  else VerifyMerkleProofWithDepth hash root item merkleIndex proof
    (proof.length - 1)

/-- The value `isValid` that `BeaconProof.Log` computes and prints
(`beacon.go` lines 147-148). -/
def BeaconProof.Log (hash : H → H → H) (bp : BeaconProof H) : Bool :=
  VerifyMerkleProof hash bp.Root bp.Item bp.Index bp.Proof

end Verify

/-! ## Specification-side notions -/

section SpecNotions

variable {H : Type}

/-- Number of binary digits of `g` (`0` for `0`). -/
def bitLength (g : Nat) : Nat := if g = 0 then 0 else BitIndex g + 1

/-- Navigation by generalized index with explicit fuel. -/
def nodeAtAux (root : Node H) : Nat → Nat → Except NavigationError (Node H)
  | 0, _ => .ok root
  | fuel + 1, g =>
    if g ≤ 1 then .ok root
    else
      match nodeAtAux root fuel (g / 2) with
      | .error err => .error err
      | .ok parent => if g % 2 = 1 then parent.Right else parent.Left

/-- The node at generalized index `g`: `node 1 = root`,
`node (2k) = left (node k)`, `node (2k+1) = right (node k)`. -/
def nodeAt (root : Node H) (g : Nat) : Except NavigationError (Node H) :=
  nodeAtAux root g g

/-- Root reconstruction as the specification words it: siblings are consumed
from the deepest level outward; at level `level` the parent is
`hash sibling running` when bit `level` of the index is `1` and
`hash running sibling` when it is `0`. -/
def foldSiblings (hash : H → H → H) (index : Nat) : Nat → List H → H → H
  | _, [], running => running
  | level, sibling :: rest, running =>
    foldSiblings hash index (level + 1) rest
      (if index.testBit level then hash sibling running
       else hash running sibling)

/-- The reconstructed root of `leaf` under `index` and `siblings`. -/
def reconstructRoot (hash : H → H → H) (leaf : H) (index : Nat)
    (siblings : List H) : H :=
  foldSiblings hash index 0 siblings leaf

/-- The running index of the composition as the specification words it:
start from the raw outermost position, then shift and OR per level. -/
def composeFromRawPosition (epDepth esrDepth : Nat) : Nat :=
  extendGindex BeaconBlockBodyPosition epDepth esrDepth

/-- Follow one decision bit: `true` goes right, `false` goes left. -/
def child (b : Bool) (n : Node H) : Except NavigationError (Node H) :=
  if b then n.Right else n.Left

/-- Follow a list of decision bits from a node. -/
def descend : Node H → List Bool → Except NavigationError (Node H)
  | n, [] => .ok n
  | n, b :: bs =>
    match child b n with
    | .error err => .error err
    | .ok c => descend c bs

/-- Merkle roots of the children not taken along a path, deepest first. -/
def siblingRoots : Node H → List Bool → List H
  | _, [] => []
  | .Root _, _ :: _ => []
  | .PairNode _ l r, b :: bs =>
    siblingRoots (if b then r else l) bs ++ [(if b then l else r).MerkleRoot]

end SpecNotions

/-! ## Concrete data for the examples -/

/-- A stand-in pairing function used to evaluate the code on small trees. -/
def toyHash (a b : Nat) : Nat := 100 * a + b

/-- Two levels, four leaves `1..4` at generalized indices `4..7`. -/
def tree4 : Node Nat :=
  Node.pair toyHash (Node.pair toyHash (.Root 1) (.Root 2))
    (Node.pair toyHash (.Root 3) (.Root 4))

/-- The smallest tree containing the path `bits` from the root to a leaf of
value `leaf`; the sibling at each step is a childless node whose value is the
number of steps still to go, so the sibling of the leaf has value `1`. -/
def pathTree (leaf : Nat) : List Bool → Node Nat
  | [] => .Root leaf
  | true :: bs =>
    Node.pair toyHash (.Root (bs.length + 1)) (pathTree leaf bs)
  | false :: bs =>
    Node.pair toyHash (pathTree leaf bs) (.Root (bs.length + 1))

/-- A tree holding leaf `7` at generalized index `6434`, the index of the
execution state root for the field counts `5`, `12`, `17`. -/
def beaconTree : Node Nat := pathTree 7 (BitIter 6434)

/-- The bundle that `GetBeaconProof` returns for `beaconTree` with the field
counts `5`, `12`, `17`, block number `100` and timestamp `200`. -/
def beaconBundle : BeaconProof Nat :=
  BeaconProof.mk 90103100516082211 7 6434
    [1, 2, 3, 4, 5, 6, 7, 8, 9, 10, 11, 12] 100 200

/-- Three levels, eight leaves `1..8` at generalized indices `8..15`. -/
def tree8 : Node Nat :=
  Node.pair toyHash
    (Node.pair toyHash (Node.pair toyHash (.Root 1) (.Root 2))
      (Node.pair toyHash (.Root 3) (.Root 4)))
    (Node.pair toyHash (Node.pair toyHash (.Root 5) (.Root 6))
      (Node.pair toyHash (.Root 7) (.Root 8)))

/-! ## Bits, cover depths and index arithmetic -/

section Bits

theorem bitIndexAux_eq_log2 (fuel v : Nat) (h : v ≤ fuel) :
    bitIndexAux fuel v = Nat.log2 v := by
  induction fuel generalizing v with
  | zero =>
    have hv : v = 0 := by omega
    subst hv
    simp [bitIndexAux, Nat.log2]
  | succ n ih =>
    rw [bitIndexAux, Nat.log2]
    by_cases h1 : v ≤ 1
    · have h2 : ¬ v ≥ 2 := by omega
      simp [h1, h2]
    · have h2 : v ≥ 2 := by omega
      have h3 : v / 2 ≤ n := by omega
      simp [h1, h2, ih _ h3]

theorem BitIndex_eq_log2 (v : Nat) : BitIndex v = Nat.log2 v :=
  bitIndexAux_eq_log2 v v (Nat.le_refl v)

theorem BitIndex_small (v : Nat) (h : v ≤ 1) : BitIndex v = 0 := by
  rw [BitIndex_eq_log2, Nat.log2]
  have h2 : ¬ v ≥ 2 := by omega
  simp [h2]

theorem BitIndex_step (v : Nat) (h : 2 ≤ v) : BitIndex v = BitIndex (v / 2) + 1 := by
  rw [BitIndex_eq_log2, BitIndex_eq_log2, Nat.log2]
  simp [h]

theorem BitIndex_lt_iff (v k : Nat) (h : v ≠ 0) : BitIndex v < k ↔ v < 2 ^ k := by
  rw [BitIndex_eq_log2]
  exact Nat.log2_lt h

theorem BitIndex_pos (g : Nat) (h : 2 ≤ g) : 1 ≤ BitIndex g := by
  rw [BitIndex_step g h]
  omega

theorem bitLength_le_iff (g k : Nat) : bitLength g ≤ k ↔ g < 2 ^ k := by
  unfold bitLength
  by_cases h : g = 0
  · subst h
    simp
  · rw [if_neg h, Nat.succ_le_iff]
    exact BitIndex_lt_iff g k h

/-- The bit length agrees with the library notion `Nat.size`. -/
theorem bitLength_eq_size (g : Nat) : bitLength g = Nat.size g := by
  apply Nat.le_antisymm
  · exact (bitLength_le_iff g _).2 (Nat.size_le.1 (Nat.le_refl _))
  · exact Nat.size_le.2 ((bitLength_le_iff g _).1 (Nat.le_refl _))

theorem two_le_of_bitLength (g : Nat) (h : 2 ≤ bitLength g) : 2 ≤ g := by
  by_contra hc
  have h1 : bitLength g ≤ 1 := (bitLength_le_iff g 1).2 (by omega)
  omega

/-- The cover depth is the smallest `d` with `v ≤ 2 ^ d`. -/
theorem CoverDepth_minimal (v : Nat) :
    v ≤ 2 ^ CoverDepth v ∧ ∀ d, v ≤ 2 ^ d → CoverDepth v ≤ d := by
  unfold CoverDepth
  by_cases h : v = 0 ∨ v = 1
  · rw [if_pos h]
    constructor
    · rcases h with h | h <;> simp [h]
    · intro d _; exact Nat.zero_le d
  · rw [if_neg h, BitIndex_eq_log2]
    have hv : v - 1 ≠ 0 := by omega
    constructor
    · have := @Nat.lt_log2_self (v - 1)
      omega
    · intro d hd
      have : (v - 1).log2 < d := (Nat.log2_lt hv).2 (by omega)
      omega

theorem bitsFrom_length (g k : Nat) : (bitsFrom g k).length = k := by
  induction k with
  | zero => rfl
  | succ n ih => simp [bitsFrom, ih]

theorem BitIter_length (g : Nat) : (BitIter g).length = BitIndex g :=
  bitsFrom_length g _

theorem bitsFrom_BitIter_length (g : Nat) :
    bitsFrom g (BitIter g).length = BitIter g := by
  rw [BitIter_length]
  rfl

theorem bitsFrom_succ_eq (g k : Nat) :
    bitsFrom g (k + 1) = bitsFrom (g / 2) k ++ [g.testBit 0] := by
  induction k with
  | zero => simp [bitsFrom]
  | succ n ih =>
    rw [bitsFrom, ih, bitsFrom, Nat.testBit_succ]
    simp

theorem BitIter_step (g : Nat) (h : 2 ≤ g) :
    BitIter g = BitIter (g / 2) ++ [g.testBit 0] := by
  unfold BitIter
  rw [BitIndex_step g h, bitsFrom_succ_eq]

theorem BitIter_small (g : Nat) (h : g ≤ 1) : BitIter g = [] := by
  unfold BitIter
  rw [BitIndex_small g h]
  rfl

/-- The bits of a proper ancestor `g >>> j` open the bit sequence of `g`. -/
theorem BitIter_shiftRight (j : Nat) :
    ∀ g : Nat, j ≤ BitIndex g →
      ∃ ys, ys.length = j ∧ BitIter g = BitIter (g >>> j) ++ ys := by
  induction j with
  | zero =>
    intro g _
    exact ⟨[], rfl, by simp⟩
  | succ n ih =>
    intro g hj
    have hg : 2 ≤ g := by
      by_contra hc
      rw [BitIndex_small g (by omega)] at hj
      omega
    rw [BitIndex_step g hg] at hj
    obtain ⟨ys, hys, hb⟩ := ih (g / 2) (by omega)
    refine ⟨ys ++ [g.testBit 0], by simp [hys], ?_⟩
    rw [BitIter_step g hg, hb, Nat.shiftRight_succ_inside, List.append_assoc]

theorem BitIter_getElem (g k : Nat) (hk : k < BitIndex g) :
    (BitIter g)[k]? = some (g.testBit (BitIndex g - 1 - k)) := by
  unfold BitIter
  generalize BitIndex g = n at hk
  induction n generalizing k with
  | zero => omega
  | succ m ih =>
    cases k with
    | zero => simp [bitsFrom]
    | succ k =>
      simp only [bitsFrom, List.getElem?_cons_succ]
      rw [ih k (by omega)]
      congr 2
      omega

/-- The ancestor of `g` just below the root is `2` or `3` according to the
first decision bit. -/
theorem first_step_index (g : Nat) (first : Bool) (rest : List Bool)
    (hg : 2 ≤ g) (hb : BitIter g = first :: rest) :
    g >>> (BitIndex g - 1) = if first then 3 else 2 := by
  have hpos := BitIndex_pos g hg
  obtain ⟨ys, hys, hsplit⟩ := BitIter_shiftRight (BitIndex g - 1) g (by omega)
  have hlen : (BitIter (g >>> (BitIndex g - 1))).length = 1 := by
    have h1 := congrArg List.length hsplit
    rw [List.length_append, BitIter_length g, hys] at h1
    omega
  have hidx : BitIndex (g >>> (BitIndex g - 1)) = 1 := by
    rw [← BitIter_length]; exact hlen
  generalize g >>> (BitIndex g - 1) = p at hsplit hlen hidx
  have hp2 : 2 ≤ p := by
    by_contra hc
    rw [BitIndex_small p (by omega)] at hidx
    omega
  have hp4 : p < 2 ^ 2 := (BitIndex_lt_iff p 2 (by omega)).1 (by omega)
  rw [hb] at hsplit
  have hp : p = 2 ∨ p = 3 := by omega
  rcases hp with hp | hp
  · subst hp
    have h2 : BitIter 2 = [false] := by decide
    rw [h2] at hsplit
    simp only [List.singleton_append, List.cons.injEq] at hsplit
    simp [hsplit.1]
  · subst hp
    have h3 : BitIter 3 = [true] := by decide
    rw [h3] at hsplit
    simp only [List.singleton_append, List.cons.injEq] at hsplit
    simp [hsplit.1]

theorem xor_one_div_two (g : Nat) : (g ^^^ 1) / 2 = g / 2 := by
  rw [Nat.xor_div_two]
  simp

theorem xor_one_mod_two (g : Nat) : (g ^^^ 1) % 2 = 1 ↔ ¬ g % 2 = 1 := by
  rw [Nat.xor_mod_two_eq_one]
  simp

theorem two_le_xor_one (g : Nat) (h : 2 ≤ g) : 2 ≤ g ^^^ 1 := by
  have h1 := xor_one_div_two g
  omega

theorem shl64_eq (x s a : Nat) (hx : x < 2 ^ a) (ha : a + s ≤ 64) :
    shl64 x s = x * 2 ^ s := by
  unfold shl64 u64
  rw [Nat.shiftLeft_eq]
  apply Nat.mod_eq_of_lt
  calc x * 2 ^ s < 2 ^ a * 2 ^ s := Nat.mul_lt_mul_of_pos_right hx (Nat.two_pow_pos s)
    _ = 2 ^ (a + s) := (Nat.pow_add 2 a s).symm
    _ ≤ 2 ^ 64 := Nat.pow_le_pow_right (by decide) ha

theorem mul_pow_or (x d p : Nat) (hp : p < 2 ^ d) :
    x * 2 ^ d ||| p = x * 2 ^ d + p := by
  rw [Nat.mul_comm x (2 ^ d)]
  exact (Nat.mul_add_lt_is_or hp x).symm

theorem mul_pow_add_lt (x a d p : Nat) (hx : x < 2 ^ a) (hp : p < 2 ^ d) :
    x * 2 ^ d + p < 2 ^ (a + d) := by
  have h1 : (x + 1) * 2 ^ d ≤ 2 ^ a * 2 ^ d := Nat.mul_le_mul_right _ hx
  rw [Nat.pow_add]
  have h2 : (x + 1) * 2 ^ d = x * 2 ^ d + 2 ^ d := by ring
  omega

theorem ToGindex64_ok (p d : Nat) (hd : d < 64) (hp : p < 2 ^ d) :
    ToGindex64 p d = .ok (2 ^ d + p) := by
  have h1 : shl64 1 d = 2 ^ d := by
    rw [shl64_eq 1 d 1 (by decide) (by omega), Nat.one_mul]
  unfold ToGindex64
  rw [if_neg (by omega)]
  simp only [h1]
  rw [if_neg (by omega)]
  have h2 := mul_pow_or 1 d p hp
  rw [Nat.one_mul] at h2
  rw [h2]

theorem ToGindex64_error_iff (p d : Nat) :
    (∃ e, ToGindex64 p d = .error e) ↔ (64 ≤ d ∨ 2 ^ d ≤ p) := by
  by_cases hd : 64 ≤ d
  · simp [ToGindex64, hd]
  · by_cases hp : 2 ^ d ≤ p
    · have h1 : shl64 1 d = 2 ^ d := by
        rw [shl64_eq 1 d 1 (by decide) (by omega), Nat.one_mul]
      simp [ToGindex64, hd, hp, h1]
    · rw [ToGindex64_ok p d (by omega) (by omega)]
      simp [hd, hp]

/-- Value of the shift-and-OR chain of lines 74-78 when nothing overflows. -/
theorem extendGindex_eq (x a d1 d2 : Nat) (hx : x < 2 ^ a)
    (ha : a + d1 + d2 ≤ 64) (h1 : 9 < 2 ^ d1) (h2 : 2 < 2 ^ d2) :
    extendGindex x d1 d2 = (x * 2 ^ d1 + 9) * 2 ^ d2 + 2 ∧
      (x * 2 ^ d1 + 9) * 2 ^ d2 + 2 < 2 ^ (a + d1 + d2) := by
  unfold extendGindex ExecutionPayloadPosition ExecutionStateRootPosition
  have e1 : shl64 x d1 = x * 2 ^ d1 := shl64_eq x d1 a hx (by omega)
  have l1 : x * 2 ^ d1 + 9 < 2 ^ (a + d1) := mul_pow_add_lt x a d1 9 hx h1
  have e2 : shl64 (x * 2 ^ d1 + 9) d2 = (x * 2 ^ d1 + 9) * 2 ^ d2 :=
    shl64_eq _ d2 (a + d1) l1 (by omega)
  simp only [e1, mul_pow_or x d1 9 h1, e2, mul_pow_or _ d2 2 h2, true_and]
  exact mul_pow_add_lt _ (a + d1) d2 2 l1 h2

theorem extendGindex_bounds (x d1 d2 : Nat) :
    2 ≤ extendGindex x d1 d2 ∧ extendGindex x d1 d2 < 2 ^ 64 := by
  unfold extendGindex ExecutionStateRootPosition
  constructor
  · have h : Nat.testBit (shl64 (shl64 x d1 ||| ExecutionPayloadPosition) d2 ||| 2) 1
        = true := by
      rw [Nat.testBit_or]
      have : Nat.testBit 2 1 = true := by decide
      simp [this]
    exact Nat.testBit_implies_ge h
  · apply Nat.or_lt_two_pow
    · exact Nat.mod_lt _ (by decide)
    · decide

end Bits

/-! ## Navigation, sibling lists and the verifier loop -/

section Navigation

variable {H : Type}

theorem Left_error_iff (n : Node H) (e : NavigationError) :
    n.Left = .error e ↔ ∃ v, n = .Root v := by
  cases n with
  | Root v => cases e; simp [Node.Left]
  | PairNode v l r => simp [Node.Left]

theorem Right_error_iff (n : Node H) (e : NavigationError) :
    n.Right = .error e ↔ ∃ v, n = .Root v := by
  cases n with
  | Root v => cases e; simp [Node.Right]
  | PairNode v l r => simp [Node.Right]

theorem descend_Root_cons (v : H) (b : Bool) (bs : List Bool) :
    descend (.Root v) (b :: bs) = .error .noChildren := by
  cases b <;> simp [descend, child, Node.Left, Node.Right]

theorem descend_append_single (n : Node H) (bs : List Bool) (b : Bool) :
    descend n (bs ++ [b]) =
      match descend n bs with
      | .error err => .error err
      | .ok m => child b m := by
  induction bs generalizing n with
  | nil =>
    simp only [List.nil_append, descend]
    cases child b n <;> rfl
  | cons c cs ih =>
    simp only [List.cons_append, descend]
    cases child c n with
    | error e => rfl
    | ok m => exact ih m

theorem descend_append (n : Node H) (xs ys : List Bool) :
    descend n (xs ++ ys) =
      match descend n xs with
      | .error err => .error err
      | .ok m => descend m ys := by
  induction xs generalizing n with
  | nil =>
    simp only [List.nil_append, descend]
  | cons c cs ih =>
    simp only [List.cons_append, descend]
    cases child c n with
    | error e => rfl
    | ok m => exact ih m

theorem nodeAtAux_eq_descend (root : Node H) (fuel g : Nat) (h : g ≤ fuel) :
    nodeAtAux root fuel g = descend root (BitIter g) := by
  induction fuel generalizing g with
  | zero =>
    have hg : g ≤ 1 := by omega
    rw [BitIter_small g hg]
    rfl
  | succ n ih =>
    rw [nodeAtAux]
    by_cases h1 : g ≤ 1
    · rw [BitIter_small g h1]
      simp [h1, descend]
    · have h2 : 2 ≤ g := by omega
      have h3 : g / 2 ≤ n := by omega
      rw [if_neg h1, ih _ h3, BitIter_step g h2, descend_append_single]
      cases descend root (BitIter (g / 2)) with
      | error e => rfl
      | ok m =>
        simp only [child, Nat.testBit_zero]
        by_cases h4 : g % 2 = 1 <;> simp [h4]

theorem nodeAt_eq_descend (root : Node H) (g : Nat) :
    nodeAt root g = descend root (BitIter g) :=
  nodeAtAux_eq_descend root g g (Nat.le_refl g)

theorem nodeAt_one (root : Node H) : nodeAt root 1 = .ok root := rfl

theorem nodeAt_step (root : Node H) (g : Nat) (h : 2 ≤ g) :
    nodeAt root g =
      match nodeAt root (g / 2) with
      | .error err => .error err
      | .ok parent => if g % 2 = 1 then parent.Right else parent.Left := by
  rw [nodeAt_eq_descend, nodeAt_eq_descend, BitIter_step g h, descend_append_single]
  cases descend root (BitIter (g / 2)) with
  | error e => rfl
  | ok m =>
    simp only [child, Nat.testBit_zero]
    by_cases h4 : g % 2 = 1 <;> simp [h4]

theorem nodeAt_two_or_three (node : Node H) (b : Bool) :
    nodeAt node ((if b then 3 else 2) ^^^ 1) = child (!b) node := by
  cases b <;> rfl

theorem siblingRoots_length (node : Node H) (bits : List Bool) (leaf : Node H)
    (h : descend node bits = .ok leaf) :
    (siblingRoots node bits).length = bits.length := by
  induction bits generalizing node with
  | nil => cases node <;> rfl
  | cons b bs ih =>
    cases node with
    | Root v => cases b <;> simp [descend, child, Node.Left, Node.Right] at h
    | PairNode v l r =>
      cases b <;> simp [descend, child, Node.Left, Node.Right] at h <;>
        simp [siblingRoots, ih _ h]

theorem siblingRoots_append_single (node : Node H) (bs : List Bool) (b : Bool)
    (v : H) (l r : Node H) (h : descend node bs = .ok (.PairNode v l r)) :
    siblingRoots node (bs ++ [b]) =
      (if b then l else r).MerkleRoot :: siblingRoots node bs := by
  induction bs generalizing node with
  | nil =>
    simp only [descend, Except.ok.injEq] at h
    subst h
    simp [siblingRoots]
  | cons c cs ih =>
    cases node with
    | Root w => cases c <;> simp [descend, child, Node.Left, Node.Right] at h
    | PairNode w l2 r2 =>
      cases c <;> simp [descend, child, Node.Left, Node.Right] at h <;>
        simp [siblingRoots, ih _ h]

/-- Element `i` of the sibling list along the path to `g` is the merkle root
of the node at generalized index `(g >>> i) ^^^ 1`. -/
theorem siblingRoots_getElem (node : Node H) (i : Nat) :
    ∀ (g : Nat) (leaf : Node H), i < BitIndex g →
      descend node (BitIter g) = .ok leaf →
      ∃ s, nodeAt node ((g >>> i) ^^^ 1) = .ok s ∧
        (siblingRoots node (BitIter g))[i]? = some s.MerkleRoot := by
  induction i with
  | zero =>
    intro g leaf hi hd
    have hg : 2 ≤ g := by
      by_contra hc
      rw [BitIndex_small g (by omega)] at hi
      omega
    rw [BitIter_step g hg, descend_append_single] at hd
    rw [BitIter_step g hg]
    cases hm : descend node (BitIter (g / 2)) with
    | error e => rw [hm] at hd; simp at hd
    | ok m =>
      rw [hm] at hd
      cases m with
      | Root w =>
        simp only [child, Node.Left, Node.Right] at hd
        split at hd <;> simp at hd
      | PairNode w l r =>
        rw [siblingRoots_append_single node _ _ w l r hm]
        refine ⟨if g.testBit 0 then l else r, ?_, by simp⟩
        rw [Nat.shiftRight_zero, nodeAt_step node _ (two_le_xor_one g hg),
          xor_one_div_two, nodeAt_eq_descend, hm]
        show (if (g ^^^ 1) % 2 = 1 then _ else _) = _
        rw [Nat.testBit_zero]
        by_cases h4 : g % 2 = 1
        · have h5 : ¬ (g ^^^ 1) % 2 = 1 := by
            rw [xor_one_mod_two]; exact fun hc => hc h4
          rw [if_neg h5]
          simp only [h4, decide_True, if_true, Node.Left]
        · have h5 : (g ^^^ 1) % 2 = 1 := by
            rw [xor_one_mod_two]; exact h4
          rw [if_pos h5]
          simp [h4, Node.Right]
  | succ n ih =>
    intro g leaf hi hd
    have hg : 2 ≤ g := by
      by_contra hc
      rw [BitIndex_small g (by omega)] at hi
      omega
    rw [BitIndex_step g hg] at hi
    rw [BitIter_step g hg, descend_append_single] at hd
    rw [BitIter_step g hg]
    cases hm : descend node (BitIter (g / 2)) with
    | error e => rw [hm] at hd; simp at hd
    | ok m =>
      rw [hm] at hd
      cases m with
      | Root w =>
        simp only [child, Node.Left, Node.Right] at hd
        split at hd <;> simp at hd
      | PairNode w l r =>
        rw [siblingRoots_append_single node _ _ w l r hm]
        obtain ⟨s, hs1, hs2⟩ := ih (g / 2) _ (by omega) hm
        refine ⟨s, ?_, by simpa using hs2⟩
        rw [← hs1, Nat.shiftRight_succ_inside]

theorem siblingRoots_getLast (node : Node H) (b : Bool) (bs : List Bool)
    (leaf : Node H) (hd : descend node (b :: bs) = .ok leaf) :
    ∃ c, child (!b) node = .ok c ∧
      (siblingRoots node (b :: bs)).getLast? = some c.MerkleRoot := by
  cases node with
  | Root v => rw [descend_Root_cons] at hd; cases hd
  | PairNode v l r =>
    cases b with
    | true => exact ⟨l, rfl, by simp [siblingRoots]⟩
    | false => exact ⟨r, rfl, by simp [siblingRoots]⟩

theorem verifyLoop_append_single (hash : H → H → H) (xs : List H) (y : H)
    (idx : Nat) (item : H) :
    verifyLoop hash (xs ++ [y]) idx item =
      (if idx.testBit xs.length then hash y (verifyLoop hash xs idx item)
       else hash (verifyLoop hash xs idx item) y) := by
  induction xs generalizing idx item with
  | nil => simp [verifyLoop]
  | cons x xs ih =>
    show verifyLoop hash (x :: (xs ++ [y])) idx item = _
    rw [verifyLoop, ih]
    simp only [List.length_cons, Nat.testBit_succ, verifyLoop]

theorem foldSiblings_eq_verifyLoop (hash : H → H → H) (index : Nat)
    (sibs : List H) (level : Nat) (running : H) :
    foldSiblings hash index level sibs running =
      verifyLoop hash sibs (index / 2 ^ level) running := by
  induction sibs generalizing level running with
  | nil => rfl
  | cons x xs ih =>
    simp only [foldSiblings, verifyLoop, ih, Nat.testBit_to_div_mod,
      Nat.and_one_is_mod, decide_eq_true_eq, Nat.div_div_eq_div_mul, pow_succ]

/-- Along an existing path of a binary hash tree, the verifier loop rebuilds
the merkle root of the start node from the leaf and the sibling list. -/
theorem verifyLoop_siblingRoots (hash : H → H → H) (bits : List Bool) :
    ∀ (node leaf : Node H) (idx : Nat), node.Hashed hash →
      descend node bits = .ok leaf → bitsFrom idx bits.length = bits →
      verifyLoop hash (siblingRoots node bits) idx leaf.MerkleRoot =
        node.MerkleRoot := by
  induction bits with
  | nil =>
    intro node leaf idx _ hd _
    simp only [descend, Except.ok.injEq] at hd
    subst hd
    cases node <;> rfl
  | cons b bs ih =>
    intro node leaf idx hh hd hb
    cases node with
    | Root w => cases b <;> simp [descend, child, Node.Left, Node.Right] at hd
    | PairNode w l r =>
      obtain ⟨hw, hl, hr⟩ := hh
      simp only [List.length_cons, bitsFrom, List.cons.injEq] at hb
      obtain ⟨hb1, hb2⟩ := hb
      cases b with
      | true =>
        simp only [descend, child, Node.Right, if_true] at hd
        have hlen := siblingRoots_length r bs leaf hd
        have hih := ih r leaf idx hr hd hb2
        show verifyLoop hash (siblingRoots r bs ++ [l.MerkleRoot]) idx
          leaf.MerkleRoot = w
        rw [verifyLoop_append_single, hlen, hb1, hih, if_pos rfl]
        exact hw.symm
      | false =>
        simp only [descend, child, Node.Left] at hd
        have hlen := siblingRoots_length l bs leaf hd
        have hih := ih l leaf idx hl hd hb2
        show verifyLoop hash (siblingRoots l bs ++ [r.MerkleRoot]) idx
          leaf.MerkleRoot = w
        rw [verifyLoop_append_single, hlen, hb1, hih, if_neg (by simp)]
        exact hw.symm

end Navigation

/-! ## The walk in closed form -/

section WalkLemmas

variable {H : Type} [DecidableEq H]

theorem walkLoop_eq (esr : H) (bits : List Bool) (node : Node H) (acc : List H) :
    walkLoop esr bits node acc =
      match descend node bits with
      | .error err => .error (.TraversalError err)
      | .ok leaf =>
        if leaf.MerkleRoot ≠ esr then .error (.ProofMismatch esr leaf.MerkleRoot)
        else .ok (leaf, siblingRoots node bits ++ acc) := by
  induction bits generalizing node acc with
  | nil => simp [walkLoop, descend, siblingRoots]
  | cons b bs ih =>
    cases node with
    | Root v => cases b <;> simp [walkLoop, descend, child, Node.Left, Node.Right]
    | PairNode v l r =>
      cases b <;>
        simp [walkLoop, descend, child, Node.Left, Node.Right, siblingRoots, ih]

theorem walk_eq (node : Node H) (esr : H) (g : Nat) :
    walk node esr g =
      match nodeAt node g with
      | .error err => .error (.TraversalError err)
      | .ok leaf =>
        if leaf.MerkleRoot ≠ esr then .error (.ProofMismatch esr leaf.MerkleRoot)
        else .ok (leaf, siblingRoots node (BitIter g)) := by
  unfold walk
  rw [walkLoop_eq, nodeAt_eq_descend]
  simp

theorem walk_ok_iff (node : Node H) (esr : H) (g : Nat) (leaf : Node H)
    (proof : List H) :
    walk node esr g = .ok (leaf, proof) ↔
      nodeAt node g = .ok leaf ∧ leaf.MerkleRoot = esr ∧
        proof = siblingRoots node (BitIter g) := by
  rw [walk_eq]
  cases hm : nodeAt node g with
  | error e => simp
  | ok m =>
    by_cases hr : m.MerkleRoot = esr
    · simp only [hr, ne_eq, not_true_eq_false, if_false, Except.ok.injEq,
        Prod.mk.injEq, true_and]
      constructor
      · rintro ⟨h1, h2⟩
        subst h1
        exact ⟨rfl, hr, h2.symm⟩
      · rintro ⟨h1, _, h3⟩
        exact ⟨h1, h3.symm⟩
    · simp only [ne_eq, hr, not_false_eq_true, if_true, Except.ok.injEq]
      constructor
      · intro h; cases h
      · rintro ⟨h1, h2, _⟩
        subst h1
        exact absurd h2 hr

/-- In a binary hash tree, the sibling list along an existing path of at
least one step passes the verifier. -/
theorem VerifyMerkleProof_siblingRoots (hash : H → H → H) (node leaf : Node H)
    (g : Nat) (hh : node.Hashed hash) (hg : 2 ≤ g)
    (hp : nodeAt node g = .ok leaf) :
    VerifyMerkleProof hash node.MerkleRoot leaf.MerkleRoot g
      (siblingRoots node (BitIter g)) = true := by
  have hd : descend node (BitIter g) = .ok leaf := by
    rw [← nodeAt_eq_descend]; exact hp
  have hlen : (siblingRoots node (BitIter g)).length = BitIndex g := by
    rw [siblingRoots_length node _ leaf hd, BitIter_length]
  have hpos := BitIndex_pos g hg
  have hv := verifyLoop_siblingRoots hash (BitIter g) node leaf g hh hd
    (bitsFrom_BitIter_length g)
  unfold VerifyMerkleProof VerifyMerkleProofWithDepth
  rw [if_neg (by omega), if_neg (by omega), hv]
  simp

/-- What a returned bundle holds: the composed index, the proof list of the
walk under that index, the merkle root of the backing node and the expected
leaf. -/
theorem GetBeaconProof_ok (n0 n1 n2 : Nat) (node : Node H) (esr : H)
    (bn ts : Except ViewError Nat) (bp : BeaconProof H)
    (h : GetBeaconProof n0 n1 n2 node esr bn ts = .ok bp) :
    composeGindex n0 n1 n2 = .ok bp.Index ∧ 2 ≤ bp.Index ∧
      (∃ leaf, walk node esr bp.Index = .ok (leaf, bp.Proof)) ∧
      bp.Root = node.MerkleRoot ∧ bp.Item = esr := by
  unfold GetBeaconProof at h
  cases hc : composeGindex n0 n1 n2 with
  | error e => rw [hc] at h; cases h
  | ok g =>
    rw [hc] at h
    have hb : 2 ≤ g ∧ g < 2 ^ 64 := by
      unfold composeGindex composeAtDepths at hc
      cases hg : ToGindex64 BeaconBlockBodyPosition (CoverDepth n0) with
      | error e => rw [hg] at hc; cases hc
      | ok x =>
        rw [hg] at hc
        cases hc
        exact extendGindex_bounds _ _ _
    cases hw : walk node esr g with
    | error e => simp only [hw] at h; cases h
    | ok res =>
      obtain ⟨leaf, proof⟩ := res
      simp only [hw] at h
      cases bn with
      | error e => cases h
      | ok bnv =>
        cases ts with
        | error e => cases h
        | ok tsv =>
          simp only [Except.ok.injEq] at h
          subst h
          have hu : u64 g = g := Nat.mod_eq_of_lt hb.2
          refine ⟨by simp only [hu], by simp only [hu]; exact hb.1,
            ⟨leaf, by simp only [hu]; exact hw⟩, rfl, rfl⟩

/-- The number of siblings a successful walk returns. -/
theorem walk_length (node leaf : Node H) (esr : H) (g : Nat) (proof : List H)
    (hw : walk node esr g = .ok (leaf, proof)) : proof.length = BitIndex g := by
  rw [walk_ok_iff] at hw
  obtain ⟨hp, _, hproof⟩ := hw
  rw [nodeAt_eq_descend] at hp
  rw [hproof, siblingRoots_length node _ leaf hp, BitIter_length]

/-- A field that can be accessed lies below the field count, hence fits the
cover depth of its container. -/
theorem Get_ok_fits (position fieldCount : Nat)
    (h : Get position fieldCount = .ok ()) :
    position < 2 ^ CoverDepth fieldCount := by
  unfold Get at h
  by_cases hp : position ≥ fieldCount
  · rw [if_pos hp] at h; cases h
  · have := (CoverDepth_minimal fieldCount).1
    omega

/-- The composition of lines 67-78 on its own fails exactly when the body
position does not fit its cover depth or that depth is 64 or more. -/
theorem composeGindex_error_iff (n0 n1 n2 : Nat) :
    (∃ e, composeGindex n0 n1 n2 = .error e) ↔
      (64 ≤ CoverDepth n0 ∨ 2 ^ CoverDepth n0 ≤ BeaconBlockBodyPosition) := by
  rw [← ToGindex64_error_iff]
  unfold composeGindex composeAtDepths
  cases ToGindex64 BeaconBlockBodyPosition (CoverDepth n0) with
  | error e => simp
  | ok g => simp

end WalkLemmas

/-! ## Properties stated by the specification -/

section Claims

variable {H : Type} [DecidableEq H]

/-- C1 (round trip): in a binary hash tree, for a generalized index of bit
length at least 2 whose path exists, the walk succeeds and its sibling list,
with the merkle root of the root node, the merkle root of the reached leaf
and the index, makes `VerifyMerkleProof` (the check of `BeaconProof.Log`)
return true. -/
theorem C1_round_trip (hash : H → H → H) (node leaf : Node H) (g : Nat)
    (hh : node.Hashed hash) (hg : 2 ≤ bitLength g)
    (hp : nodeAt node g = .ok leaf) :
    ∃ proof, walk node leaf.MerkleRoot g = .ok (leaf, proof) ∧
      VerifyMerkleProof hash node.MerkleRoot leaf.MerkleRoot g proof = true ∧
      ∀ bn ts, BeaconProof.Log hash
        (BeaconProof.mk node.MerkleRoot leaf.MerkleRoot g proof bn ts) = true := by
  have hv := VerifyMerkleProof_siblingRoots hash node leaf g hh
    (two_le_of_bitLength g hg) hp
  refine ⟨siblingRoots node (BitIter g), ?_, hv, fun _ _ => hv⟩
  rw [walk_ok_iff]
  exact ⟨hp, rfl, rfl⟩

theorem C1_round_trip_witness :
    tree8.Hashed toyHash ∧ 2 ≤ bitLength 13 ∧ nodeAt tree8 13 = .ok (.Root 6) ∧
      ∃ proof, walk tree8 6 13 = .ok (.Root 6, proof) ∧
        VerifyMerkleProof toyHash tree8.MerkleRoot 6 13 proof = true ∧
        ∀ bn ts, BeaconProof.Log toyHash
          (BeaconProof.mk tree8.MerkleRoot 6 13 proof bn ts) = true :=
  ⟨by decide, by decide, by decide,
    C1_round_trip toyHash tree8 (.Root 6) 13 (by decide) (by decide) (by decide)⟩

/-- C2 as stated fails: for the four-leaf tree and index `5` the stored proof
is `[1, 304]`; its first element is the sibling of the target leaf (node `4`)
and not the sibling nearest the root (node `3`, merkle root `304`). -/
theorem C2_counterexample :
    ¬ (∀ (node leaf : Node Nat) (esr g : Nat) (proof : List Nat),
        walk node esr g = .ok (leaf, proof) → 2 ≤ g →
        ∃ nearRoot nearLeaf,
          nodeAt node ((g >>> (BitIndex g - 1)) ^^^ 1) = .ok nearRoot ∧
          nodeAt node (g ^^^ 1) = .ok nearLeaf ∧
          proof.head? = some nearRoot.MerkleRoot ∧
          proof.getLast? = some nearLeaf.MerkleRoot) := by
  intro h
  obtain ⟨nearRoot, nearLeaf, h1, h2, h3, h4⟩ :=
    h tree4 (.Root 2) 2 5 [1, 304] (by decide) (by decide)
  have e1 : nodeAt tree4 ((5 >>> (BitIndex 5 - 1)) ^^^ 1) =
      .ok (Node.pair toyHash (.Root 3) (.Root 4)) := by decide
  rw [e1] at h1
  cases h1
  revert h3
  decide

/-- C2 (amended): for every successful walk with at least one step the stored
proof is in leaf-to-root order: its first element is the merkle root of the
sibling of the target leaf (node `g xor 1`) and its last element is the
merkle root of the complement taken at the first descent step, the sibling
nearest the tree root. -/
theorem C2_leaf_to_root_order (node leaf : Node H) (esr : H) (g : Nat)
    (proof : List H) (hw : walk node esr g = .ok (leaf, proof)) (hg : 2 ≤ g) :
    (∃ nearLeaf, nodeAt node (g ^^^ 1) = .ok nearLeaf ∧
        proof.head? = some nearLeaf.MerkleRoot) ∧
    (∃ first rest nearRoot, BitIter g = first :: rest ∧
        child (!first) node = .ok nearRoot ∧
        nodeAt node ((g >>> (BitIndex g - 1)) ^^^ 1) = .ok nearRoot ∧
        proof.getLast? = some nearRoot.MerkleRoot) := by
  rw [walk_ok_iff] at hw
  obtain ⟨hp, _, hproof⟩ := hw
  have hd : descend node (BitIter g) = .ok leaf := by
    rw [← nodeAt_eq_descend]; exact hp
  have hpos := BitIndex_pos g hg
  subst hproof
  constructor
  · obtain ⟨s, hs1, hs2⟩ := siblingRoots_getElem node 0 g leaf (by omega) hd
    refine ⟨s, by simpa using hs1, ?_⟩
    rw [List.head?_eq_getElem?]
    exact hs2
  · cases hb : BitIter g with
    | nil =>
      have := BitIter_length g
      rw [hb] at this
      simp at this
      omega
    | cons first rest =>
      rw [hb] at hd
      obtain ⟨c, hc1, hc2⟩ := siblingRoots_getLast node first rest leaf hd
      refine ⟨first, rest, c, rfl, hc1, ?_, hc2⟩
      rw [first_step_index g first rest hg hb, nodeAt_two_or_three]
      exact hc1

theorem C2_leaf_to_root_order_witness :
    walk tree4 2 5 = .ok (.Root 2, [1, 304]) ∧ 2 ≤ 5 ∧
      nodeAt tree4 (5 ^^^ 1) = .ok (.Root 1) ∧
      tree4.Right = .ok (Node.pair toyHash (.Root 3) (.Root 4)) ∧
      ((∃ nearLeaf, nodeAt tree4 (5 ^^^ 1) = .ok nearLeaf ∧
          ([1, 304] : List Nat).head? = some nearLeaf.MerkleRoot) ∧
        (∃ first rest nearRoot, BitIter 5 = first :: rest ∧
          child (!first) tree4 = .ok nearRoot ∧
          nodeAt tree4 ((5 >>> (BitIndex 5 - 1)) ^^^ 1) = .ok nearRoot ∧
          ([1, 304] : List Nat).getLast? = some nearRoot.MerkleRoot)) :=
  ⟨by decide, by decide, by decide, by decide,
    C2_leaf_to_root_order tree4 (.Root 2) 2 5 [1, 304] (by decide) (by decide)⟩

/-- C3 (index exhaustion): in every `BeaconProof` that `GetBeaconProof`
returns, the number of sibling hashes in `Proof` is the bit length of `Index`
minus one, `Proof` being the list of the walk under `Index`; and for every
generalized index `g ≥ 1` a successful walk returns `bit_length g - 1`
siblings. -/
theorem C3_sibling_count (n0 n1 n2 : Nat) (node : Node H) (esr : H)
    (bn ts : Except ViewError Nat) (bp : BeaconProof H)
    (h : GetBeaconProof n0 n1 n2 node esr bn ts = .ok bp) :
    bp.Proof.length + 1 = bitLength bp.Index ∧
      bp.Proof.length = bitLength bp.Index - 1 ∧
      (∃ leaf, walk node esr bp.Index = .ok (leaf, bp.Proof)) ∧
      composeGindex n0 n1 n2 = .ok bp.Index ∧
      (∀ (g : Nat) (leaf : Node H) (proof : List H), 1 ≤ g →
        walk node esr g = .ok (leaf, proof) →
        proof.length + 1 = bitLength g) := by
  obtain ⟨hc, hg, ⟨leaf, hw⟩, _, _⟩ := GetBeaconProof_ok n0 n1 n2 node esr bn ts bp h
  have hlen := walk_length node leaf esr bp.Index bp.Proof hw
  have hbl : bitLength bp.Index = BitIndex bp.Index + 1 := by
    unfold bitLength
    rw [if_neg (by omega)]
  refine ⟨by omega, by omega, ⟨leaf, hw⟩, hc, ?_⟩
  intro g leaf2 proof hg1 hw2
  have hlen2 := walk_length node leaf2 esr g proof hw2
  unfold bitLength
  rw [if_neg (by omega), hlen2]

theorem C3_sibling_count_witness :
    GetBeaconProof 5 12 17 beaconTree 7 (.ok 100) (.ok 200) = .ok beaconBundle ∧
      beaconBundle.Index = 6434 ∧ bitLength 6434 = 13 ∧
      beaconBundle.Proof.length = 12 ∧
      beaconBundle.Proof.length + 1 = bitLength beaconBundle.Index :=
  ⟨by decide, by decide, by decide, by decide,
    (C3_sibling_count 5 12 17 beaconTree 7 (.ok 100) (.ok 200) beaconBundle
      (by decide)).1⟩

/-- C4 (leaf check): when the path of the index exists and the merkle root of
the reached node differs from the expected execution state root, the walk
ends in `ProofMismatch`, and so does `GetBeaconProof`: no proof is returned. -/
theorem C4_leaf_mismatch_fatal (node leaf : Node H) (esr : H) (g : Nat)
    (hp : nodeAt node g = .ok leaf) (hne : leaf.MerkleRoot ≠ esr) :
    walk node esr g = .error (.ProofMismatch esr leaf.MerkleRoot) ∧
      ∀ (blockFields bodyFields payloadFields : Nat)
        (bn ts : Except ViewError Nat),
        composeGindex blockFields bodyFields payloadFields = .ok g →
        GetBeaconProof blockFields bodyFields payloadFields node esr bn ts =
          .error (.ProofMismatch esr leaf.MerkleRoot) := by
  have hw : walk node esr g = .error (.ProofMismatch esr leaf.MerkleRoot) := by
    rw [walk_eq, hp]
    simp [hne]
  refine ⟨hw, ?_⟩
  intro n0 n1 n2 bn ts hc
  unfold GetBeaconProof
  rw [hc]
  simp only [hw]

theorem C4_leaf_mismatch_fatal_witness :
    nodeAt tree8 13 = .ok (.Root 6) ∧ (Node.Root 6 : Node Nat).MerkleRoot ≠ 7 ∧
      walk tree8 7 13 = .error (.ProofMismatch 7 6) :=
  ⟨by decide, by decide,
    (C4_leaf_mismatch_fatal tree8 (.Root 6) 7 13 (by decide) (by decide)).1⟩

/-- C5 (traversal failure): if at some step of the walk (at an ancestor
`g >>> j` of the target, `1 ≤ j ≤ BitIndex g`) the lookup of the left or the
right child fails, the walk and `GetBeaconProof` return that error and no
proof; and when the walk returns a proof, both child lookups succeeded at
every step. -/
theorem C5_traversal_failure (node : Node H) (esr : H) (g : Nat) :
    (∀ (j : Nat) (n : Node H) (e : NavigationError), 1 ≤ j → j ≤ BitIndex g →
        nodeAt node (g >>> j) = .ok n → (n.Left = .error e ∨ n.Right = .error e) →
        walk node esr g = .error (.TraversalError e) ∧
        ∀ (blockFields bodyFields payloadFields : Nat)
          (bn ts : Except ViewError Nat),
          composeGindex blockFields bodyFields payloadFields = .ok g →
          GetBeaconProof blockFields bodyFields payloadFields node esr bn ts =
            .error (.TraversalError e)) ∧
    (∀ (leaf : Node H) (proof : List H), walk node esr g = .ok (leaf, proof) →
        ∀ j, 1 ≤ j → j ≤ BitIndex g →
          ∃ n l r, nodeAt node (g >>> j) = .ok n ∧ n.Left = .ok l ∧
            n.Right = .ok r) := by
  constructor
  · intro j n e hj1 hj2 hn hfail
    have hroot : ∃ v, n = .Root v := by
      rcases hfail with h | h
      · exact (Left_error_iff n e).1 h
      · exact (Right_error_iff n e).1 h
    obtain ⟨v, hv⟩ := hroot
    subst hv
    obtain ⟨ys, hys, hsplit⟩ := BitIter_shiftRight j g hj2
    have hw : walk node esr g = .error (.TraversalError e) := by
      unfold walk
      rw [walkLoop_eq, hsplit, descend_append, ← nodeAt_eq_descend, hn]
      cases ys with
      | nil => simp at hys; omega
      | cons y ys =>
        cases e
        simp only [descend_Root_cons]
    refine ⟨hw, ?_⟩
    intro n0 n1 n2 bn ts hc
    unfold GetBeaconProof
    rw [hc]
    simp only [hw]
  · intro leaf proof hw j hj1 hj2
    rw [walk_ok_iff] at hw
    obtain ⟨hp, _, _⟩ := hw
    obtain ⟨ys, hys, hsplit⟩ := BitIter_shiftRight j g hj2
    rw [nodeAt_eq_descend, hsplit, descend_append, ← nodeAt_eq_descend] at hp
    cases hn : nodeAt node (g >>> j) with
    | error e => rw [hn] at hp; cases hp
    | ok n =>
      rw [hn] at hp
      cases ys with
      | nil => simp at hys; omega
      | cons y ys =>
        cases n with
        | Root v =>
          simp only [descend_Root_cons] at hp
          cases hp
        | PairNode v l r => exact ⟨_, l, r, rfl, rfl, rfl⟩

theorem C5_traversal_failure_witness :
    nodeAt tree4 (13 >>> 1) = .ok (.Root 3) ∧
      (Node.Root 3 : Node Nat).Left = .error .noChildren ∧
      walk tree4 3 13 = .error (.TraversalError .noChildren) ∧
      walk tree8 6 13 = .ok (.Root 6, [5, 708, 10504]) ∧
      ∃ n l r, nodeAt tree8 (13 >>> 1) = .ok n ∧ n.Left = .ok l ∧
        n.Right = .ok r :=
  ⟨by decide, by decide,
    ((C5_traversal_failure tree4 3 13).1 1 (.Root 3) .noChildren (by decide)
      (by decide) (by decide) (Or.inl (by decide))).1,
    by decide,
    (C5_traversal_failure tree8 6 13).2 (.Root 6) [5, 708, 10504] (by decide) 1
      (by decide) (by decide)⟩

/-- C6 (InvalidLayout): for every container layout, if one of the three
positions on the path (body 4, execution payload 9, state root 2) is at least
`2 ^ depth` for the cover depth of its container, `GetBeaconProof` fails with
an error and produces no index and no proof: such a position is not below
the field count, so the field access of lines 53-64 returns the error before
the composition is reached; and for the body position the composition of
line 67 fails by itself (`ToGindex64`), giving `InvalidLayout`. -/
theorem C6_invalid_layout (n0 n1 n2 : Nat)
    (h : 2 ^ CoverDepth n0 ≤ BeaconBlockBodyPosition ∨
      2 ^ CoverDepth n1 ≤ ExecutionPayloadPosition ∨
      2 ^ CoverDepth n2 ≤ ExecutionStateRootPosition) :
    (∃ e, accessPath n0 n1 n2 = .error e ∧
        ∀ (node : Node H) (esr : H) (bn ts : Except ViewError Nat),
          GetBeaconProofOfBlock n0 n1 n2 node esr bn ts =
            .error (.ViewFailure e)) ∧
      (2 ^ CoverDepth n0 ≤ BeaconBlockBodyPosition →
        ∃ e, composeGindex n0 n1 n2 = .error e ∧
          ∀ (node : Node H) (esr : H) (bn ts : Except ViewError Nat),
            GetBeaconProof n0 n1 n2 node esr bn ts =
              .error (.InvalidLayout e)) := by
  constructor
  · cases ha : accessPath n0 n1 n2 with
    | error e =>
      refine ⟨e, rfl, ?_⟩
      intro node esr bn ts
      unfold GetBeaconProofOfBlock
      rw [ha]
    | ok u =>
      exfalso
      unfold accessPath at ha
      cases h0 : Get BeaconBlockBodyPosition n0 with
      | error e => rw [h0] at ha; cases ha
      | ok u0 =>
        rw [h0] at ha
        cases h1 : Get ExecutionPayloadPosition n1 with
        | error e => rw [h1] at ha; cases ha
        | ok u1 =>
          rw [h1] at ha
          have f0 := Get_ok_fits _ _ h0
          have f1 := Get_ok_fits _ _ h1
          have f2 := Get_ok_fits ExecutionStateRootPosition n2 ha
          omega
  · intro hb
    obtain ⟨e, he⟩ := (composeGindex_error_iff n0 n1 n2).2 (Or.inr hb)
    refine ⟨e, he, ?_⟩
    intro node esr bn ts
    unfold GetBeaconProof
    rw [he]

theorem C6_invalid_layout_witness :
    2 ^ CoverDepth 8 ≤ ExecutionPayloadPosition ∧
      accessPath 5 8 17 = .error (.badField 9) ∧
      GetBeaconProofOfBlock 5 8 17 beaconTree 7 (.ok 100) (.ok 200) =
        .error (.ViewFailure (.badField 9)) ∧
      accessPath 5 12 17 = .ok () ∧
      ∃ e, accessPath 5 8 17 = .error e ∧
        ∀ (node : Node Nat) (esr : Nat) (bn ts : Except ViewError Nat),
          GetBeaconProofOfBlock 5 8 17 node esr bn ts =
            .error (.ViewFailure e) :=
  ⟨by decide, by decide, by decide, by decide,
    (C6_invalid_layout (H := Nat) 5 8 17 (Or.inr (Or.inl (by decide)))).1⟩

/-- C7 as stated fails on the empty sibling list: the fold of no siblings
from leaf `7` is `7`, equal to the root `7`, yet the verifier returns
false. -/
theorem C7_counterexample :
    ¬ (∀ (root leaf index : Nat) (siblings : List Nat),
        VerifyMerkleProof toyHash root leaf index siblings = true ↔
          reconstructRoot toyHash leaf index siblings = root) := by
  intro h
  have h1 := (h 7 7 1 []).2 (by decide)
  revert h1
  decide

/-- C7 (amended): for a non-empty sibling list the verifier returns true
exactly when the fold of the siblings from the deepest level outward equals
the provided root; for the empty list it returns false. -/
theorem C7_verifier_contract (hash : H → H → H) (root leaf : H) (index : Nat)
    (siblings : List H) (hne : siblings ≠ []) :
    (VerifyMerkleProof hash root leaf index siblings = true ↔
        reconstructRoot hash leaf index siblings = root) ∧
      VerifyMerkleProof hash root leaf index [] = false := by
  have hlen : siblings.length ≠ 0 := by
    intro h0
    exact hne (List.length_eq_zero.1 h0)
  constructor
  · unfold VerifyMerkleProof VerifyMerkleProofWithDepth reconstructRoot
    rw [if_neg hlen, if_neg (by omega), foldSiblings_eq_verifyLoop]
    simp only [pow_zero, Nat.div_one, decide_eq_true_eq]
    exact eq_comm
  · rfl

theorem C7_verifier_contract_witness :
    ([5, 708, 10504] : List Nat) ≠ [] ∧
      reconstructRoot toyHash 6 13 [5, 708, 10504] = tree8.MerkleRoot ∧
      VerifyMerkleProof toyHash tree8.MerkleRoot 6 13 [5, 708, 10504] = true ∧
      VerifyMerkleProof toyHash 9 6 13 [5, 708, 10504] = false :=
  ⟨by decide, by decide,
    (C7_verifier_contract toyHash tree8.MerkleRoot 6 13 [5, 708, 10504]
      (by decide)).1.2 (by decide),
    by decide⟩

/-- C8 (composite index value): for cover depths with `d0 + d1 + d2 < 64` in
which the three positions fit, the composed index is
`2^(d0+d1+d2) + 4*2^(d1+d2) + 9*2^d2 + 2`, which is the nested shift/OR
expression; its bit `d0+d1+d2` is the leading (sentinel) bit and its bit
length is `d0 + d1 + d2 + 1`.  The same holds for field counts whose cover
depths are `d0`, `d1`, `d2`. -/
theorem C8_composite_index (d0 d1 d2 : Nat) (hsum : d0 + d1 + d2 < 64)
    (h0 : 4 < 2 ^ d0) (h1 : 9 < 2 ^ d1) (h2 : 2 < 2 ^ d2) :
    composeAtDepths d0 d1 d2 =
        .ok (2 ^ (d0 + d1 + d2) + 4 * 2 ^ (d1 + d2) + 9 * 2 ^ d2 + 2) ∧
      (∀ n0 n1 n2, CoverDepth n0 = d0 → CoverDepth n1 = d1 →
        CoverDepth n2 = d2 →
        composeGindex n0 n1 n2 =
          .ok (2 ^ (d0 + d1 + d2) + 4 * 2 ^ (d1 + d2) + 9 * 2 ^ d2 + 2)) ∧
      2 ^ (d0 + d1 + d2) + 4 * 2 ^ (d1 + d2) + 9 * 2 ^ d2 + 2 =
        ((((2 ^ d0 + 4) <<< d1) ||| 9) <<< d2) ||| 2 ∧
      Nat.testBit (2 ^ (d0 + d1 + d2) + 4 * 2 ^ (d1 + d2) + 9 * 2 ^ d2 + 2)
        (d0 + d1 + d2) = true ∧
      2 ^ (d0 + d1 + d2) + 4 * 2 ^ (d1 + d2) + 9 * 2 ^ d2 + 2 <
        2 ^ (d0 + d1 + d2 + 1) ∧
      bitLength (2 ^ (d0 + d1 + d2) + 4 * 2 ^ (d1 + d2) + 9 * 2 ^ d2 + 2) =
        d0 + d1 + d2 + 1 := by
  have hx : 2 ^ d0 + 4 < 2 ^ (d0 + 1) := by
    rw [Nat.pow_succ]; omega
  obtain ⟨he, hlt⟩ := extendGindex_eq (2 ^ d0 + 4) (d0 + 1) d1 d2 hx (by omega) h1 h2
  have hval : ((2 ^ d0 + 4) * 2 ^ d1 + 9) * 2 ^ d2 + 2 =
      2 ^ (d0 + d1 + d2) + 4 * 2 ^ (d1 + d2) + 9 * 2 ^ d2 + 2 := by
    rw [Nat.pow_add, Nat.pow_add, Nat.pow_add]; ring
  have hcomp : composeAtDepths d0 d1 d2 =
      .ok (2 ^ (d0 + d1 + d2) + 4 * 2 ^ (d1 + d2) + 9 * 2 ^ d2 + 2) := by
    unfold composeAtDepths BeaconBlockBodyPosition
    rw [ToGindex64_ok 4 d0 (by omega) h0]
    simp only [he, hval]
  have hlt2 : 2 ^ (d0 + d1 + d2) + 4 * 2 ^ (d1 + d2) + 9 * 2 ^ d2 + 2 <
      2 ^ (d0 + d1 + d2 + 1) := by
    rw [← hval]
    have : d0 + 1 + d1 + d2 = d0 + d1 + d2 + 1 := by omega
    rw [← this]; exact hlt
  have hrest : 4 * 2 ^ (d1 + d2) + 9 * 2 ^ d2 + 2 < 2 ^ (d0 + d1 + d2) := by
    rw [Nat.pow_succ] at hlt2; omega
  refine ⟨hcomp, ?_, ?_, ?_, hlt2, ?_⟩
  · intro n0 n1 n2 e0 e1 e2
    unfold composeGindex
    rw [e0, e1, e2]
    exact hcomp
  · simp only [Nat.shiftLeft_eq]
    rw [mul_pow_or _ d1 9 h1, mul_pow_or _ d2 2 h2, hval]
  · have e : 2 ^ (d0 + d1 + d2) + 4 * 2 ^ (d1 + d2) + 9 * 2 ^ d2 + 2 =
        2 ^ (d0 + d1 + d2) + (4 * 2 ^ (d1 + d2) + 9 * 2 ^ d2 + 2) := by omega
    rw [e, Nat.testBit_two_pow_add_eq, Nat.testBit_lt_two_pow hrest]
    rfl
  · have hle := (bitLength_le_iff
      (2 ^ (d0 + d1 + d2) + 4 * 2 ^ (d1 + d2) + 9 * 2 ^ d2 + 2)
      (d0 + d1 + d2 + 1)).2 hlt2
    have hnle : ¬ bitLength
        (2 ^ (d0 + d1 + d2) + 4 * 2 ^ (d1 + d2) + 9 * 2 ^ d2 + 2) ≤
        d0 + d1 + d2 := by
      rw [bitLength_le_iff]; omega
    omega

theorem C8_composite_index_witness :
    3 + 4 + 5 < 64 ∧ 4 < 2 ^ 3 ∧ 9 < 2 ^ 4 ∧ 2 < 2 ^ 5 ∧
      CoverDepth 5 = 3 ∧ CoverDepth 12 = 4 ∧ CoverDepth 17 = 5 ∧
      composeGindex 5 12 17 = .ok 6434 ∧
      composeAtDepths 3 4 5 =
        .ok (2 ^ (3 + 4 + 5) + 4 * 2 ^ (4 + 5) + 9 * 2 ^ 5 + 2) :=
  ⟨by decide, by decide, by decide, by decide, by decide, by decide, by decide,
    by decide,
    (C8_composite_index 3 4 5 (by decide) (by decide) (by decide)
      (by decide)).1⟩

/-- C9 as stated fails: for the field counts 5, 12, 17 the running index
starts at 12 (the anchor bit `2 ^ 3` OR-ed with position 4), not at the raw
position 4, and the composed index is 6434, not the 2338 that a raw start
gives. -/
theorem C9_counterexample :
    ¬ (∀ (n0 n1 n2 g0 g : Nat),
        ToGindex64 BeaconBlockBodyPosition (CoverDepth n0) = .ok g0 →
        composeGindex n0 n1 n2 = .ok g →
        g0 = BeaconBlockBodyPosition ∧
          g = composeFromRawPosition (CoverDepth n1) (CoverDepth n2)) := by
  intro h
  have h1 := h 5 12 17 12 6434 (by decide) (by decide)
  revert h1
  decide

/-- C9 (amended): the running index begins as the generalized index of the
outermost field, `2 ^ d0 + 4` (position 4 with the anchor bit of its cover
depth), and for each of the two nested levels it is left-shifted by that
cover depth of that level (in 64 bits) and OR-ed with the next field
position. -/
theorem C9_composer_start (d0 d1 d2 : Nat) (hd : d0 < 64) (h0 : 4 < 2 ^ d0) :
    ToGindex64 BeaconBlockBodyPosition d0 = .ok (2 ^ d0 + 4) ∧
      composeAtDepths d0 d1 d2 =
        .ok (((((2 ^ d0 + 4) <<< d1) % 2 ^ 64 ||| 9) <<< d2) % 2 ^ 64 ||| 2) ∧
      (∀ n0 n1 n2, CoverDepth n0 = d0 → CoverDepth n1 = d1 →
        CoverDepth n2 = d2 →
        composeGindex n0 n1 n2 =
          .ok (((((2 ^ d0 + 4) <<< d1) % 2 ^ 64 ||| 9) <<< d2) % 2 ^ 64 ||| 2)) := by
  have hs : ToGindex64 BeaconBlockBodyPosition d0 = .ok (2 ^ d0 + 4) :=
    ToGindex64_ok 4 d0 hd h0
  have hc : composeAtDepths d0 d1 d2 =
      .ok (((((2 ^ d0 + 4) <<< d1) % 2 ^ 64 ||| 9) <<< d2) % 2 ^ 64 ||| 2) := by
    unfold composeAtDepths
    rw [hs]
    rfl
  refine ⟨hs, hc, ?_⟩
  intro n0 n1 n2 e0 e1 e2
  unfold composeGindex
  rw [e0, e1, e2]
  exact hc

theorem C9_composer_start_witness :
    3 < 64 ∧ 4 < 2 ^ 3 ∧ CoverDepth 5 = 3 ∧
      ToGindex64 BeaconBlockBodyPosition 3 = .ok 12 ∧
      composeAtDepths 3 4 5 = .ok 6434 ∧
      ToGindex64 BeaconBlockBodyPosition 3 = .ok (2 ^ 3 + 4) :=
  ⟨by decide, by decide, by decide, by decide, by decide,
    (C9_composer_start 3 4 5 (by decide) (by decide)).1⟩

/-- C10 (walk correctness): when the path of `g` exists, the decision
bits are the bits of `g` below its leading bit, highest first; the walk stops
at the node at generalized index `g` (and returns it with the proof exactly
when its merkle root is the expected one); the proof has one entry per
ancestor step, and entry `i` is the merkle root of the node at generalized
index `(g >>> i) xor 1`, the child not descended into. -/
theorem C10_walk_correct (node leaf : Node H) (esr : H) (g : Nat)
    (hp : nodeAt node g = .ok leaf) :
    (∀ k, k < BitIndex g →
        (BitIter g)[k]? = some (g.testBit (BitIndex g - 1 - k))) ∧
    descend node (BitIter g) = .ok leaf ∧
    ∃ proof : List H,
      walk node esr g =
        (if leaf.MerkleRoot ≠ esr then
          .error (.ProofMismatch esr leaf.MerkleRoot)
         else .ok (leaf, proof)) ∧
      proof.length = BitIndex g ∧
      ∀ i, i < BitIndex g →
        ∃ s, nodeAt node ((g >>> i) ^^^ 1) = .ok s ∧
          proof[i]? = some s.MerkleRoot := by
  have hd : descend node (BitIter g) = .ok leaf := by
    rw [← nodeAt_eq_descend]; exact hp
  refine ⟨fun k hk => BitIter_getElem g k hk, hd,
    siblingRoots node (BitIter g), ?_, ?_, ?_⟩
  · rw [walk_eq, hp]
  · rw [siblingRoots_length node _ leaf hd, BitIter_length]
  · intro i hi
    exact siblingRoots_getElem node i g leaf hi hd

theorem C10_walk_correct_witness :
    nodeAt tree8 13 = .ok (.Root 6) ∧
      walk tree8 6 13 = .ok (.Root 6, [5, 708, 10504]) ∧
      nodeAt tree8 (13 ^^^ 1) = .ok (.Root 5) ∧
      ((nodeAt tree8 ((13 >>> 1) ^^^ 1)).map Node.MerkleRoot = .ok 708) ∧
      ((nodeAt tree8 ((13 >>> 2) ^^^ 1)).map Node.MerkleRoot = .ok 10504) ∧
      BitIter 13 = [true, false, true] ∧
      ((∀ k, k < BitIndex 13 →
          (BitIter 13)[k]? = some (Nat.testBit 13 (BitIndex 13 - 1 - k))) ∧
        descend tree8 (BitIter 13) = .ok (.Root 6) ∧
        ∃ proof : List Nat,
          walk tree8 6 13 =
            (if (Node.Root 6 : Node Nat).MerkleRoot ≠ 6 then
              .error (.ProofMismatch 6 (Node.Root 6 : Node Nat).MerkleRoot)
             else .ok (.Root 6, proof)) ∧
          proof.length = BitIndex 13 ∧
          ∀ i, i < BitIndex 13 →
            ∃ s, nodeAt tree8 ((13 >>> i) ^^^ 1) = .ok s ∧
              proof[i]? = some s.MerkleRoot) :=
  ⟨by decide, by decide, by decide, by decide, by decide, by decide,
    C10_walk_correct tree8 (.Root 6) 6 13 (by decide)⟩

end Claims

/-! ## The assembled function -/

section Assembled

variable {H : Type} [DecidableEq H]

/-- Every proof bundle that `GetBeaconProof` returns for a binary hash tree
is accepted by the check in `Log`. -/
theorem GetBeaconProof_valid (hash : H → H → H) (n0 n1 n2 : Nat)
    (node : Node H) (esr : H) (bn ts : Except ViewError Nat)
    (bp : BeaconProof H) (hh : node.Hashed hash)
    (h : GetBeaconProof n0 n1 n2 node esr bn ts = .ok bp) :
    bp.Log hash = true := by
  obtain ⟨_, hg, ⟨leaf, hw⟩, hroot, hitem⟩ :=
    GetBeaconProof_ok n0 n1 n2 node esr bn ts bp h
  rw [walk_ok_iff] at hw
  obtain ⟨hp, hleaf, hproof⟩ := hw
  have hv := VerifyMerkleProof_siblingRoots hash node leaf bp.Index hh hg hp
  unfold BeaconProof.Log
  rw [hroot, hitem, hproof, ← hleaf]
  exact hv

/-- The function from the decoded block returns what lines 67-133 return
once the three fields on the path exist. -/
theorem GetBeaconProofOfBlock_ok (n0 n1 n2 : Nat) (node : Node H) (esr : H)
    (bn ts : Except ViewError Nat) (bp : BeaconProof H)
    (h : GetBeaconProofOfBlock n0 n1 n2 node esr bn ts = .ok bp) :
    accessPath n0 n1 n2 = .ok () ∧
      GetBeaconProof n0 n1 n2 node esr bn ts = .ok bp := by
  unfold GetBeaconProofOfBlock at h
  cases ha : accessPath n0 n1 n2 with
  | error e => rw [ha] at h; cases h
  | ok u =>
    rw [ha] at h
    exact ⟨rfl, h⟩

theorem GetBeaconProof_valid_example :
    beaconTree.Hashed toyHash ∧
      (GetBeaconProof 5 12 17 beaconTree 7 (.ok 100) (.ok 200)).map
          (fun bp => (bp.Item, bp.Index, bp.Proof.length, bp.BlockNumber,
            bp.Timestamp, bp.Log toyHash)) =
        .ok (7, 6434, 12, 100, 200, true) ∧
      GetBeaconProof 5 12 17 beaconTree 8 (.ok 100) (.ok 200) =
        .error (.ProofMismatch 8 7) ∧
      GetBeaconProof 5 12 17 tree8 6 (.ok 100) (.ok 200) =
        .error (.TraversalError .noChildren) ∧
      GetBeaconProof 4 12 17 beaconTree 7 (.ok 100) (.ok 200) =
        .error (.InvalidLayout (.indexTooLarge 4 4 2)) ∧
      GetBeaconProofOfBlock 5 12 17 beaconTree 7 (.ok 100) (.ok 200) =
        .ok beaconBundle ∧
      GetBeaconProofOfBlock 4 12 17 beaconTree 7 (.ok 100) (.ok 200) =
        .error (.ViewFailure (.badField 4)) := by
  refine ⟨by decide, by decide, by decide, by decide, by decide, by decide,
    by decide⟩

end Assembled

end StateProof
